import Mathlib

/-!
Verification of `src/disassembler.cpp` (so-analyzer-android).

The buffer handed across JNI is modelled as a `List Nat` of raw byte values
(each `< 256`).  Where the C++ code reads the buffer through `jbyte` (signed
8-bit), the raw byte is viewed through `toSigned`; where it reads through
`unsigned char` (as in `extractStrings`) the raw value is used directly.
A `jint` parameter is modelled as an `Int` (with range hypotheses where a
property depends on them), and `size_t` conversion as reduction modulo 2^64.
-/

/-- Signed 8-bit view of a raw byte value, as C++ `jbyte` sees it. -/
def toSigned (b : Nat) : Int :=
  if b < 128 then (b : Int) else (b : Int) - 256

/-- Model of `Java_com_example_soanalyzer_utils_NativeDisassembler_disassembleARM64`:
the body ignores the code bytes and the address and returns an empty array of
strings (the Capstone integration is a TODO). -/
def disassembleARM64 (code : List Nat) (address : Int) : List String :=
  []

/-- Model of `Java_com_example_soanalyzer_utils_NativeDisassembler_parseELFHeader`:
returns `none` (the C++ returns `nullptr`) when the buffer is shorter than 20
bytes or the first four `jbyte` values differ from `0x7F 'E' 'L' 'F'`;
otherwise returns the five `jint` values `bytes[4] .. bytes[8]`, each a
sign-extended `jbyte`. -/
def parseELFHeader (data : List Nat) : Option (List Int) :=
  if data.length < 20 ∨ toSigned (data.getD 0 0) ≠ 0x7F ∨
      toSigned (data.getD 1 0) ≠ 69 ∨ toSigned (data.getD 2 0) ≠ 76 ∨
      toSigned (data.getD 3 0) ≠ 70 then
    none
  else
    some [toSigned (data.getD 4 0), toSigned (data.getD 5 0),
          toSigned (data.getD 6 0), toSigned (data.getD 7 0),
          toSigned (data.getD 8 0)]

/-- The C++ comparison `current.length() >= minLength` converts the signed
`jint` to `size_t` (reduction modulo 2^64) before comparing. -/
def sizeTOfInt (m : Int) : Nat :=
  (m % (2 ^ 64 : Int)).toNat

/-- Loop of `Java_com_example_soanalyzer_utils_NativeDisassembler_extractStrings`:
walks the remaining bytes with the accumulator `current`; printable bytes
(32..126, read through `unsigned char`) extend the accumulator, a 0 byte emits
the accumulator when its length passes the (size_t-converted) threshold, and
any other byte discards the accumulator.  Whatever is accumulated at the end
of the buffer is dropped. -/
def scanGo (m : Int) : List Nat → List Nat → List (List Nat)
  | [], _ => []
  | c :: rest, current =>
    if 32 ≤ c ∧ c ≤ 126 then
      scanGo m rest (current ++ [c])
    else if c = 0 ∧ sizeTOfInt m ≤ current.length then
      current :: scanGo m rest []
    else
      scanGo m rest []

/-- Model of `extractStrings`: scan the whole buffer starting from an empty
accumulator. -/
def extractStrings (data : List Nat) (minLength : Int) : List (List Nat) :=
  scanGo minLength data []

/-- Model of `Java_com_example_soanalyzer_utils_NativeDisassembler_calculateHash`:
the body ignores the data and returns the placeholder string of 64 zero
characters (SHA-256 is a TODO). -/
def calculateHash (data : List Nat) : String :=
  "0000000000000000000000000000000000000000000000000000000000000000"

/-- Raw bytes of an emitted instruction string, for stating byte-coverage
properties of the disassembler output. -/
def rawBytesOf (s : String) : List Nat :=
  s.toList.map Char.toNat

/-- Concatenation, in emission order, of the raw bytes of a sequence of
emitted instructions. -/
def coveredBytes (insns : List String) : List Nat :=
  insns.flatMap rawBytesOf

/-- A scanned string `s` sits inside the byte list `L` ending just before
offset `j`, and the byte of `L` at offset `j` is 0. -/
def EmittedAt (L s : List Nat) (j : Nat) : Prop :=
  s.length ≤ j ∧ (L.drop (j - s.length)).take s.length = s ∧
    ∃ t, L.drop j = 0 :: t

theorem toSigned_eq_iff (b : Nat) (v : Int) (hb : b < 256) (hv0 : 0 ≤ v)
    (hv : v < 128) : toSigned b = v ↔ (b : Int) = v := by
  unfold toSigned
  split <;> omega

theorem toSigned_range (b : Nat) (hb : b < 256) :
    -128 ≤ toSigned b ∧ toSigned b ≤ 127 := by
  unfold toSigned
  split <;> omega

theorem toSigned_of_128_le (b : Nat) (hb : b < 256) (h128 : 128 ≤ b) :
    toSigned b = (b : Int) - 256 := by
  unfold toSigned
  split <;> omega

theorem getD_mem (l : List Nat) (j : Nat) (hj : j < l.length) :
    l.getD j 0 ∈ l := by
  induction l generalizing j with
  | nil => simp at hj
  | cons a t ih =>
    cases j with
    | zero => simp
    | succ n =>
      simp only [List.getD_cons_succ]
      exact List.mem_cons_of_mem _ (ih n (by simpa using hj))

theorem take4_eq (data : List Nat) (h4 : 4 ≤ data.length) :
    data.take 4 =
      [data.getD 0 0, data.getD 1 0, data.getD 2 0, data.getD 3 0] := by
  match data with
  | [] | [_] | [_, _] | [_, _, _] => simp at h4
  | a :: b :: c :: d :: t => simp

/-- Claim C1: with raw byte values below 256, `parseELFHeader` succeeds
exactly when the buffer has length at least 20 and starts with the four magic
bytes `0x7F 'E' 'L' 'F'`; on every other input it returns `none`, carrying no
partial result. -/
theorem parseELFHeader_isSome_iff (data : List Nat)
    (h : ∀ b ∈ data, b < 256) :
    (parseELFHeader data).isSome = true ↔
      20 ≤ data.length ∧ data.take 4 = [0x7F, 69, 76, 70] := by
  unfold parseELFHeader
  split
  case isTrue hc =>
    simp only [Option.isSome_none, Bool.false_eq_true, false_iff, not_and]
    intro h20 htake
    have h4 : 4 ≤ data.length := by omega
    rw [take4_eq data h4] at htake
    simp only [List.cons.injEq, and_true] at htake
    obtain ⟨e0, e1, e2, e3⟩ := htake
    have m0 := h _ (getD_mem data 0 (by omega))
    have m1 := h _ (getD_mem data 1 (by omega))
    have m2 := h _ (getD_mem data 2 (by omega))
    have m3 := h _ (getD_mem data 3 (by omega))
    rcases hc with h' | h' | h' | h' | h' <;>
      [omega;
       exact h' ((toSigned_eq_iff _ _ m0 (by omega) (by omega)).2 (by omega));
       exact h' ((toSigned_eq_iff _ _ m1 (by omega) (by omega)).2 (by omega));
       exact h' ((toSigned_eq_iff _ _ m2 (by omega) (by omega)).2 (by omega));
       exact h' ((toSigned_eq_iff _ _ m3 (by omega) (by omega)).2 (by omega))]
  case isFalse hc =>
    push_neg at hc
    obtain ⟨h20, e0, e1, e2, e3⟩ := hc
    have h4 : 4 ≤ data.length := by omega
    have m0 := h _ (getD_mem data 0 (by omega))
    have m1 := h _ (getD_mem data 1 (by omega))
    have m2 := h _ (getD_mem data 2 (by omega))
    have m3 := h _ (getD_mem data 3 (by omega))
    have b0 := (toSigned_eq_iff _ _ m0 (by omega) (by omega)).1 e0
    have b1 := (toSigned_eq_iff _ _ m1 (by omega) (by omega)).1 e1
    have b2 := (toSigned_eq_iff _ _ m2 (by omega) (by omega)).1 e2
    have b3 := (toSigned_eq_iff _ _ m3 (by omega) (by omega)).1 e3
    simp only [Option.isSome_some, true_iff]
    refine ⟨by omega, ?_⟩
    rw [take4_eq data h4]
    simp only [List.cons.injEq, and_true]
    omega

/-- Claim C1, witness at a concrete 20-byte ELF header. -/
theorem parseELFHeader_isSome_iff_witness :
    (parseELFHeader ([0x7F, 69, 76, 70, 2, 1, 1, 0, 0] ++
        List.replicate 11 0)).isSome = true ↔
      20 ≤ ([0x7F, 69, 76, 70, 2, 1, 1, 0, 0] ++
        (List.replicate 11 0 : List Nat)).length ∧
      ([0x7F, 69, 76, 70, 2, 1, 1, 0, 0] ++
        (List.replicate 11 0 : List Nat)).take 4 = [0x7F, 69, 76, 70] :=
  parseELFHeader_isSome_iff _ (by decide)

/-- Claim C6: when the buffer has at least 20 bytes and carries the ELF
magic, `parseELFHeader` returns exactly the five identification values read
(signed) from byte offsets 4 through 8. -/
theorem parseELFHeader_success_fields (data : List Nat)
    (h20 : 20 ≤ data.length) (hm : data.take 4 = [0x7F, 69, 76, 70]) :
    parseELFHeader data =
      some [toSigned (data.getD 4 0), toSigned (data.getD 5 0),
            toSigned (data.getD 6 0), toSigned (data.getD 7 0),
            toSigned (data.getD 8 0)] := by
  unfold parseELFHeader
  have h4 : 4 ≤ data.length := by omega
  rw [take4_eq data h4] at hm
  simp only [List.cons.injEq, and_true] at hm
  obtain ⟨e0, e1, e2, e3⟩ := hm
  rw [if_neg]
  push_neg
  exact ⟨by omega, by rw [e0]; decide, by rw [e1]; decide,
    by rw [e2]; decide, by rw [e3]; decide⟩

/-- Claim C6, witness: the end-to-end scenario
`[0x7F,'E','L','F',2,1,1,0,0, 11 zero bytes]` parses to `[2,1,1,0,0]`
(fileClass 2 = 64-bit, endianness 1 = little, version 1, osAbi 0,
abiVersion 0). -/
theorem parseELFHeader_success_fields_witness :
    parseELFHeader ([0x7F, 69, 76, 70, 2, 1, 1, 0, 0] ++
      List.replicate 11 0) = some [2, 1, 1, 0, 0] :=
  (parseELFHeader_success_fields _ (by decide) (by decide)).trans (by decide)

/-- Claim C9: every value returned by a successful parse lies in -128..127,
and an identification byte with raw value at least 128 is reported
sign-extended, as that value minus 256. -/
theorem parseELFHeader_signed_output (data : List Nat) (r : List Int)
    (h : ∀ b ∈ data, b < 256) (hp : parseELFHeader data = some r) :
    r.length = 5 ∧ (∀ v ∈ r, -128 ≤ v ∧ v ≤ 127) ∧
    ∀ i, i < 5 → 128 ≤ data.getD (4 + i) 0 →
      r.getD i 0 = (data.getD (4 + i) 0 : Int) - 256 := by
  unfold parseELFHeader at hp
  split at hp
  case isTrue => exact absurd hp (by simp)
  case isFalse hc =>
    push_neg at hc
    have h20 : 20 ≤ data.length := by omega
    have m4 := h _ (getD_mem data 4 (by omega))
    have m5 := h _ (getD_mem data 5 (by omega))
    have m6 := h _ (getD_mem data 6 (by omega))
    have m7 := h _ (getD_mem data 7 (by omega))
    have m8 := h _ (getD_mem data 8 (by omega))
    obtain rfl : _ = r := Option.some_injective _ hp
    refine ⟨rfl, ?_, ?_⟩
    · intro v hv
      simp only [List.mem_cons, List.not_mem_nil, or_false] at hv
      rcases hv with rfl | rfl | rfl | rfl | rfl
      · exact toSigned_range _ m4
      · exact toSigned_range _ m5
      · exact toSigned_range _ m6
      · exact toSigned_range _ m7
      · exact toSigned_range _ m8
    · intro i hi h128
      interval_cases i <;>
        simp only [List.getD_cons_zero, List.getD_cons_succ] <;>
        [exact toSigned_of_128_le _ m4 h128;
         exact toSigned_of_128_le _ m5 h128;
         exact toSigned_of_128_le _ m6 h128;
         exact toSigned_of_128_le _ m7 h128;
         exact toSigned_of_128_le _ m8 h128]

/-- Claim C9, witness: a header whose osAbi byte is 0xFF parses with that
field reported as -1. -/
theorem parseELFHeader_signed_output_witness :
    ([2, 1, 1, -1, 0] : List Int).length = 5 ∧
    (∀ v ∈ ([2, 1, 1, -1, 0] : List Int), -128 ≤ v ∧ v ≤ 127) ∧
    ∀ i, i < 5 →
      128 ≤ (([0x7F, 69, 76, 70, 2, 1, 1, 255, 0] ++
        List.replicate 11 0 : List Nat)).getD (4 + i) 0 →
      (([2, 1, 1, -1, 0] : List Int)).getD i 0 =
        ((([0x7F, 69, 76, 70, 2, 1, 1, 255, 0] ++
          List.replicate 11 0 : List Nat)).getD (4 + i) 0 : Int) - 256 :=
  parseELFHeader_signed_output _ _ (by decide) (by decide)

theorem drop_append_len (p l : List Nat) (k : Nat) :
    (p ++ l).drop (p.length + k) = l.drop k := by
  induction p with
  | nil => simp
  | cons a p ih =>
    simp only [List.cons_append, List.length_cons]
    rw [Nat.succ_add, List.drop_succ_cons]
    exact ih

theorem drop_cons_getD (l : List Nat) (j c : Nat) (t : List Nat)
    (h : l.drop j = c :: t) : l.getD j 1 = c ∧ j < l.length := by
  induction l generalizing j with
  | nil => simp at h
  | cons a l ih =>
    cases j with
    | zero =>
      simp only [List.drop_zero, List.cons.injEq] at h
      simp [h.1]
    | succ n =>
      rw [List.drop_succ_cons] at h
      have := ih n h
      simp only [List.getD_cons_succ, List.length_cons]
      exact ⟨this.1, by omega⟩

theorem emittedAt_shift (p L s : List Nat) (j : Nat) (h : EmittedAt L s j) :
    EmittedAt (p ++ L) s (p.length + j) := by
  obtain ⟨hle, hslice, t, hdrop⟩ := h
  refine ⟨by omega, ?_, t, ?_⟩
  · have he : p.length + j - s.length = p.length + (j - s.length) := by omega
    rw [he, drop_append_len, hslice]
  · rw [drop_append_len, hdrop]

theorem scanGo_mem_spec (m : Int) :
    ∀ (bs current : List Nat), (∀ c ∈ current, 32 ≤ c ∧ c ≤ 126) →
      ∀ s ∈ scanGo m bs current,
        sizeTOfInt m ≤ s.length ∧ (∀ c ∈ s, 32 ≤ c ∧ c ≤ 126) ∧
        ∃ j, EmittedAt (current ++ bs) s j := by
  intro bs
  induction bs with
  | nil =>
    intro current hcur s hs
    simp [scanGo] at hs
  | cons c rest ih =>
    intro current hcur s hs
    simp only [scanGo] at hs
    split at hs
    case isTrue hp =>
      have hcur' : ∀ x ∈ current ++ [c], 32 ≤ x ∧ x ≤ 126 := by
        intro x hx
        rcases List.mem_append.1 hx with h' | h'
        · exact hcur x h'
        · simp only [List.mem_singleton] at h'
          exact h' ▸ hp
      have hres := ih (current ++ [c]) hcur' s hs
      refine ⟨hres.1, hres.2.1, ?_⟩
      obtain ⟨j, hj⟩ := hres.2.2
      rw [List.append_assoc, List.singleton_append] at hj
      exact ⟨j, hj⟩
    case isFalse =>
      split at hs
      case isTrue hz =>
        obtain ⟨hc0, hlen⟩ := hz
        subst hc0
        rcases List.mem_cons.1 hs with rfl | hs'
        · refine ⟨hlen, hcur, s.length, le_refl _, ?_, rest, ?_⟩
          · rw [Nat.sub_self, List.drop_zero, List.take_left]
          · rw [List.drop_left]
        · have hres := ih [] (by simp) s hs'
          refine ⟨hres.1, hres.2.1, ?_⟩
          obtain ⟨j, hj⟩ := hres.2.2
          rw [List.nil_append] at hj
          have hsh := emittedAt_shift (current ++ [0]) rest s j hj
          rw [List.append_assoc, List.singleton_append] at hsh
          exact ⟨(current ++ [0]).length + j, hsh⟩
      case isFalse =>
        have hres := ih [] (by simp) s hs
        refine ⟨hres.1, hres.2.1, ?_⟩
        obtain ⟨j, hj⟩ := hres.2.2
        rw [List.nil_append] at hj
        have hsh := emittedAt_shift (current ++ [c]) rest s j hj
        rw [List.append_assoc, List.singleton_append] at hsh
        exact ⟨(current ++ [c]).length + j, hsh⟩

theorem scanGo_printable_nil (m : Int) :
    ∀ (bs current : List Nat), (∀ c ∈ bs, 32 ≤ c ∧ c ≤ 126) →
      scanGo m bs current = [] := by
  intro bs
  induction bs with
  | nil => intro current _; rfl
  | cons c rest ih =>
    intro current hb
    simp only [scanGo, if_pos (hb c (List.mem_cons_self c rest))]
    exact ih _ fun x hx => hb x (List.mem_cons_of_mem _ hx)

theorem scanGo_append_printable (m : Int) (R : List Nat)
    (hR : ∀ c ∈ R, 32 ≤ c ∧ c ≤ 126) :
    ∀ (bs current : List Nat),
      scanGo m (bs ++ R) current = scanGo m bs current := by
  intro bs
  induction bs with
  | nil =>
    intro current
    rw [List.nil_append]
    exact scanGo_printable_nil m R current hR
  | cons c rest ih =>
    intro current
    rw [List.cons_append]
    by_cases h1 : 32 ≤ c ∧ c ≤ 126
    · simp only [scanGo, if_pos h1]
      exact ih _
    · by_cases h2 : c = 0 ∧ sizeTOfInt m ≤ current.length
      · simp only [scanGo, if_neg h1, if_pos h2, ih]
      · simp only [scanGo, if_neg h1, if_neg h2, ih]

theorem scanGo_nil_of_short (m : Int) :
    ∀ (bs current : List Nat),
      current.length + bs.length < sizeTOfInt m → scanGo m bs current = [] := by
  intro bs
  induction bs with
  | nil => intro current _; rfl
  | cons c rest ih =>
    intro current h
    simp only [List.length_cons] at h
    simp only [scanGo]
    split
    · exact ih _ (by simp only [List.length_append, List.length_cons,
        List.length_nil]; omega)
    · split
      case isTrue hz => exact absurd hz.2 (by omega)
      case isFalse => exact ih _ (by simp only [List.length_nil]; omega)

/-- Claim C2: every string emitted by `extractStrings` meets the length
threshold, is made only of printable bytes 32..126, and sits in the buffer
immediately followed by a 0 byte at an offset strictly inside the buffer —
never flush against end-of-buffer. -/
theorem extractStrings_sound (B : List Nat) (m : Int) (s : List Nat)
    (hm : m < 2 ^ 31) (hs : s ∈ extractStrings B m) :
    m ≤ (s.length : Int) ∧ (∀ c ∈ s, 32 ≤ c ∧ c ≤ 126) ∧
    ∃ j, s.length ≤ j ∧ j < B.length ∧
      (B.drop (j - s.length)).take s.length = s ∧ B.getD j 1 = 0 := by
  have h := scanGo_mem_spec m B [] (by simp) s hs
  obtain ⟨hlen, hpr, j, hle, hslice, t, hdrop⟩ := h
  rw [List.nil_append] at hslice hdrop
  have hlenm : m ≤ (s.length : Int) := by
    rcases le_or_lt 0 m with h0 | h0
    · have he : sizeTOfInt m = m.toNat := by unfold sizeTOfInt; omega
      rw [he] at hlen
      omega
    · omega
  have hgd := drop_cons_getD B j 0 t hdrop
  exact ⟨hlenm, hpr, j, hle, hgd.2, hslice, hgd.1⟩

/-- Claim C2, witness: scanning `[72,105,0]` with threshold 1 emits
`"Hi" = [72,105]`, which satisfies all three conditions. -/
theorem extractStrings_sound_witness :
    (1 : Int) ≤ (([72, 105] : List Nat).length : Int) ∧
    (∀ c ∈ ([72, 105] : List Nat), 32 ≤ c ∧ c ≤ 126) ∧
    ∃ j, ([72, 105] : List Nat).length ≤ j ∧
      j < ([72, 105, 0] : List Nat).length ∧
      (([72, 105, 0] : List Nat).drop
        (j - ([72, 105] : List Nat).length)).take
        ([72, 105] : List Nat).length = [72, 105] ∧
      ([72, 105, 0] : List Nat).getD j 1 = 0 :=
  extractStrings_sound [72, 105, 0] 1 [72, 105] (by decide) (by decide)

/-- Claim C5, counterexample: with threshold 0, the buffer `[0]` makes
`extractStrings` emit the empty string. -/
theorem extractStrings_emits_empty_string :
    extractStrings [0] 0 = [[]] ∧ ¬ ∀ s ∈ extractStrings [0] 0, s ≠ [] := by
  refine ⟨by decide, fun hall => hall [] (by decide) rfl⟩

/-- Claim C5 (amended): for every threshold of at least 1, every string
emitted by `extractStrings` is non-empty. -/
theorem extractStrings_members_nonempty (B : List Nat) (m : Int) (s : List Nat)
    (h1 : 1 ≤ m) (hm : m < 2 ^ 31) (hs : s ∈ extractStrings B m) :
    s ≠ [] := by
  intro he
  have h := scanGo_mem_spec m B [] (by simp) s hs
  have hlen := h.1
  rw [he] at hlen
  have hz : sizeTOfInt m = m.toNat := by unfold sizeTOfInt; omega
  simp only [List.length_nil, Nat.le_zero] at hlen
  omega

/-- Claim C5, witness: with threshold 2 the string `[72,105]` emitted from
`[72,105,0]` is non-empty. -/
theorem extractStrings_members_nonempty_witness :
    ([72, 105] : List Nat) ≠ [] :=
  extractStrings_members_nonempty [72, 105, 0] 2 [72, 105]
    (by decide) (by decide) (by decide)

/-- Claim C7: a trailing run of printable bytes that reaches the end of the
buffer without a 0 terminator is never emitted — appending it to any buffer
leaves the result unchanged. -/
theorem extractStrings_ignores_trailing_run (B R : List Nat) (m : Int)
    (hR : ∀ c ∈ R, 32 ≤ c ∧ c ≤ 126) :
    extractStrings (B ++ R) m = extractStrings B m :=
  scanGo_append_printable m R hR B []

/-- Claim C7, witness: appending the unterminated printable run `[66,67]`
to `[65,0]` does not change the extracted strings. -/
theorem extractStrings_ignores_trailing_run_witness :
    extractStrings ([65, 0] ++ [66, 67]) 0 = extractStrings [65, 0] 0 :=
  extractStrings_ignores_trailing_run [65, 0] [66, 67] 0 (by decide)

/-- Claim C8: a strictly negative `minLength` is converted to an enormous
unsigned value by the `size_t` comparison, so no string is ever emitted. -/
theorem extractStrings_negative_min (B : List Nat) (m : Int)
    (hneg : m < 0) (hrange : -(2 ^ 31) ≤ m) (hB : B.length < 2 ^ 63) :
    extractStrings B m = [] := by
  apply scanGo_nil_of_short
  have hbig : 2 ^ 63 < sizeTOfInt m := by unfold sizeTOfInt; omega
  simp only [List.length_nil, Nat.zero_add]
  omega

/-- Claim C8, witness: threshold -1 extracts nothing from `[72,105,0]`,
although threshold 1 would have emitted `[72,105]`. -/
theorem extractStrings_negative_min_witness :
    extractStrings [72, 105, 0] (-1) = [] :=
  extractStrings_negative_min [72, 105, 0] (-1)
    (by decide) (by decide) (by decide)

/-- Claim C10: `calculateHash` is independent of its input — every call
returns the same fixed 64-character string of `0` characters. -/
theorem calculateHash_constant (B B' : List Nat) :
    calculateHash B = calculateHash B' ∧
    calculateHash B =
      "0000000000000000000000000000000000000000000000000000000000000000" ∧
    (calculateHash B).length = 64 :=
  ⟨rfl, rfl, rfl⟩

/-- Claim C4: on the empty buffer `calculateHash` returns the placeholder
string of 64 zero characters, not the published SHA-256 empty-input digest
`e3b0c44298fc1c149afbf4c8996fb92427ae41e4649b934ca495991b7852b855`. -/
theorem calculateHash_empty_not_sha256 :
    calculateHash [] =
      "0000000000000000000000000000000000000000000000000000000000000000" ∧
    calculateHash [] ≠
      "e3b0c44298fc1c149afbf4c8996fb92427ae41e4649b934ca495991b7852b855" :=
  ⟨rfl, by decide⟩

/-- Claim C3, counterexample: on the 4-byte buffer `[1,2,3,4]` the
disassembler emits no instructions, so the concatenated raw bytes of its
output are empty and do not reproduce the 4-byte prefix the claim requires. -/
theorem disassembleARM64_coverage_counterexample :
    disassembleARM64 [1, 2, 3, 4] 0 = [] ∧
    coveredBytes (disassembleARM64 [1, 2, 3, 4] 0) ≠
      List.take (([1, 2, 3, 4] : List Nat).length / 4 * 4) [1, 2, 3, 4] :=
  ⟨rfl, by decide⟩

/-- Claim C3: `disassembleARM64` is a placeholder — for every buffer and base
address it returns the empty instruction list, whose concatenated raw bytes
are empty. -/
theorem disassembleARM64_eq_nil (code : List Nat) (address : Int) :
    disassembleARM64 code address = [] ∧
    coveredBytes (disassembleARM64 code address) = [] :=
  ⟨rfl, rfl⟩
